import Mathlib

/-! # Verification of the subtitle translator

A shallow embedding of `sub_translator.py`.  The SRT scanner below implements
exactly the matching semantics of the regular expression used by
`SubtitleTranslator.parse_srt`
(the pattern, with MULTILINE, over which `re.finditer` scans):
index digits, a newline, two timestamps separated by a literal arrow,
a newline, then the lazy group of text lines terminated by a blank line or
the end of input.  The serializer mirrors `save_progress`, the retry loop
mirrors `translate_text`, and the batch loop of `translate_subtitles` is
embedded with the remote translation service abstracted as an oracle giving
the outcome of each per-batch call. -/

/-- Whitespace set of Python `str.strip` (ASCII part). -/
def isSpace (c : Char) : Bool :=
  c == ' ' || c == '\t' || c == '\n' || c == '\r' || c == '\x0b' || c == '\x0c'

/-- Remove the maximal run of trailing whitespace characters. -/
def dropTrail : List Char → List Char
  | [] => []
  | c :: cs =>
    match dropTrail cs with
    | [] => if isSpace c then [] else [c]
    | d :: ds => c :: d :: ds

/-- Python `str.strip`: drop leading and trailing whitespace. -/
def pyStrip (cs : List Char) : List Char := dropTrail (cs.dropWhile isSpace)

/-- Python `str.strip` on `String`. -/
def pyStripS (s : String) : String := (pyStrip s.toList).asString

/-- Maximal leading run of decimal digits (the regex atom `\d+`; backtracking
against the mandatory following newline never helps, so the run is maximal). -/
def takeDigits : List Char → List Char × List Char
  | [] => ([], [])
  | c :: cs =>
    if c.isDigit then
      let p := takeDigits cs
      (c :: p.1, p.2)
    else ([], c :: cs)

/-- Match a fixed-length character pattern, one predicate per character. -/
def matchShape : List (Char → Bool) → List Char → Option (List Char × List Char)
  | [], cs => some ([], cs)
  | _ :: _, [] => none
  | p :: ps, c :: cs =>
    if p c then (matchShape ps cs).map (fun tr => (c :: tr.1, tr.2)) else none

/-- Pattern check without consumption, for stating invariants. -/
def shapeHolds : List (Char → Bool) → List Char → Bool
  | [], [] => true
  | p :: ps, c :: cs => p c && shapeHolds ps cs
  | _, _ => false

/-- The timestamp pattern of the subtitle regex: two digits, colon, two
digits, colon, two digits, comma, three digits. -/
def timeShape : List (Char → Bool) :=
  [Char.isDigit, Char.isDigit, (· == ':'), Char.isDigit, Char.isDigit, (· == ':'),
   Char.isDigit, Char.isDigit, (· == ','), Char.isDigit, Char.isDigit, Char.isDigit]

/-- The literal arrow (space, two hyphens, greater-than, space) between the
two timestamps. -/
def arrowShape : List (Char → Bool) :=
  [(· == ' '), (· == '-'), (· == '-'), (· == '>'), (· == ' ')]

/-- Match a single mandatory newline. -/
def matchNl : List Char → Option (List Char)
  | '\n' :: r => some r
  | _ => none

mutual

/-- The lazy text-line group of the subtitle regex together with its
terminator: consume whole lines as long as the terminator (a blank line,
which is consumed, or the end of input) has not been reached.  A final line
with no closing newline fails the whole match, exactly as the regex does. -/
def matchBody : List Char → Option (List Char × List Char)
  | [] => some ([], [])
  | c :: cs =>
    if c = '\n' then some ([], cs)
    else (matchTail cs).map (fun br => (c :: br.1, br.2))

/-- Continuation of `matchBody` in the middle of a text line. -/
def matchTail : List Char → Option (List Char × List Char)
  | [] => none
  | c :: cs =>
    if c = '\n' then (matchBody cs).map (fun br => ('\n' :: br.1, br.2))
    else (matchTail cs).map (fun br => (c :: br.1, br.2))

end

/-- One parsed subtitle record: the Python dict with keys `index`,
`start_time`, `end_time` and `text`. -/
structure Subtitle where
  index : String
  start_time : String
  end_time : String
  text : String
deriving DecidableEq, Repr

instance : Inhabited Subtitle := ⟨⟨"", "", "", ""⟩⟩

/-- One attempt of the whole subtitle pattern at the current position.  The
parsed text is the raw matched body passed through Python `str.strip`. -/
def matchBlock (cs : List Char) : Option (Subtitle × List Char) :=
  match takeDigits cs with
  | ([], _) => none
  | (d :: ds, r1) =>
    (matchNl r1).bind fun r2 =>
    (matchShape timeShape r2).bind fun t1r =>
    (matchShape arrowShape t1r.2).bind fun ar =>
    (matchShape timeShape ar.2).bind fun t2r =>
    (matchNl t2r.2).bind fun r6 =>
    (matchBody r6).map fun br =>
    ({ index := (d :: ds).asString, start_time := t1r.1.asString,
       end_time := t2r.1.asString, text := (pyStrip br.1).asString }, br.2)

theorem takeDigits_append (cs : List Char) :
    (takeDigits cs).1 ++ (takeDigits cs).2 = cs := by
  induction cs with
  | nil => rfl
  | cons c cs ih =>
    simp only [takeDigits]
    split
    · simpa using ih
    · rfl

theorem matchNl_eq {cs r : List Char} (h : matchNl cs = some r) : cs = '\n' :: r := by
  unfold matchNl at h
  split at h
  · cases h; rfl
  · cases h

theorem matchShape_eq {spec : List (Char → Bool)} {cs t r : List Char}
    (h : matchShape spec cs = some (t, r)) :
    t ++ r = cs ∧ t.length = spec.length := by
  induction spec generalizing cs t r with
  | nil =>
    simp only [matchShape, Option.some_inj] at h
    cases h
    exact ⟨rfl, rfl⟩
  | cons p ps ih =>
    cases cs with
    | nil => simp [matchShape] at h
    | cons c cs =>
      simp only [matchShape] at h
      split at h
      · cases hm : matchShape ps cs with
        | none => rw [hm] at h; cases h
        | some tr =>
          rw [hm] at h
          simp only [Option.map_some', Option.some_inj] at h
          cases h
          obtain ⟨h1, h2⟩ := ih hm
          constructor
          · simpa using h1
          · simpa using h2
      · cases h

theorem matchBody_matchTail_le (cs : List Char) :
    (∀ b r, matchBody cs = some (b, r) → r.length ≤ cs.length) ∧
      (∀ b r, matchTail cs = some (b, r) → r.length ≤ cs.length) := by
  induction cs with
  | nil =>
    constructor
    · intro b r h
      simp only [matchBody, Option.some_inj] at h
      cases h; simp
    · intro b r h
      simp [matchTail] at h
  | cons c cs ih =>
    constructor
    · intro b r h
      simp only [matchBody] at h
      split at h
      · cases h; simp
      · cases hm : matchTail cs with
        | none => rw [hm] at h; cases h
        | some br =>
          rw [hm] at h
          simp only [Option.map_some', Option.some_inj] at h
          cases h
          have := ih.2 br.1 br.2 (by rw [hm])
          simp only [List.length_cons]
          omega
    · intro b r h
      simp only [matchTail] at h
      split at h
      · cases hm : matchBody cs with
        | none => rw [hm] at h; cases h
        | some br =>
          rw [hm] at h
          simp only [Option.map_some', Option.some_inj] at h
          cases h
          have := ih.1 br.1 br.2 (by rw [hm])
          simp only [List.length_cons]
          omega
      · cases hm : matchTail cs with
        | none => rw [hm] at h; cases h
        | some br =>
          rw [hm] at h
          simp only [Option.map_some', Option.some_inj] at h
          cases h
          have := ih.2 br.1 br.2 (by rw [hm])
          simp only [List.length_cons]
          omega

theorem matchBody_le {cs b r : List Char} (h : matchBody cs = some (b, r)) :
    r.length ≤ cs.length :=
  (matchBody_matchTail_le cs).1 b r h

theorem matchBlock_lt {cs : List Char} {sr : Subtitle × List Char}
    (h : matchBlock cs = some sr) : sr.2.length < cs.length := by
  unfold matchBlock at h
  cases hd : takeDigits cs with
  | mk ds r1 =>
    rw [hd] at h
    cases ds with
    | nil => cases h
    | cons d ds =>
      simp only [Option.bind_eq_bind] at h
      cases h2 : matchNl r1 with
      | none => rw [h2] at h; cases h
      | some r2 =>
        rw [h2] at h
        simp only [Option.some_bind] at h
        cases h3 : matchShape timeShape r2 with
        | none => rw [h3] at h; cases h
        | some t1r =>
          rw [h3] at h
          simp only [Option.some_bind] at h
          cases h4 : matchShape arrowShape t1r.2 with
          | none => rw [h4] at h; cases h
          | some ar =>
            rw [h4] at h
            simp only [Option.some_bind] at h
            cases h5 : matchShape timeShape ar.2 with
            | none => rw [h5] at h; cases h
            | some t2r =>
              rw [h5] at h
              simp only [Option.some_bind] at h
              cases h6 : matchNl t2r.2 with
              | none => rw [h6] at h; cases h
              | some r6 =>
                rw [h6] at h
                simp only [Option.some_bind] at h
                cases h7 : matchBody r6 with
                | none => rw [h7] at h; cases h
                | some br =>
                  rw [h7] at h
                  simp only [Option.map_some', Option.some_inj] at h
                  have hlen1 : (d :: ds).length + r1.length = cs.length := by
                    have h0 := takeDigits_append cs
                    rw [hd] at h0
                    have := congrArg List.length h0
                    simp only [List.length_append] at this
                    exact this
                  have hr2 : r1 = '\n' :: r2 := matchNl_eq h2
                  have h3' := matchShape_eq h3
                  have h4' := matchShape_eq h4
                  have h5' := matchShape_eq h5
                  have hr6 : t2r.2 = '\n' :: r6 := matchNl_eq h6
                  have hb := matchBody_le h7
                  have l3 : t1r.1.length + t1r.2.length = r2.length := by
                    have := congrArg List.length h3'.1
                    simpa using this
                  have l4 : ar.1.length + ar.2.length = t1r.2.length := by
                    have := congrArg List.length h4'.1
                    simpa using this
                  have l5 : t2r.1.length + t2r.2.length = ar.2.length := by
                    have := congrArg List.length h5'.1
                    simpa using this
                  have e2 : r1.length = r2.length + 1 := by rw [hr2]; simp
                  have e6 : t2r.2.length = r6.length + 1 := by rw [hr6]; simp
                  have hsr : sr.2 = br.2 := by rw [← h]
                  rw [hsr]
                  simp only [List.length_cons] at hlen1
                  omega

/-- The `re.finditer` scan of `parse_srt`, driven by explicit fuel: at each
position try the subtitle pattern; on success record it and resume at the
end of the match, otherwise advance one character.  Since every step
consumes at least one character, any fuel above the input length gives the
same result (`findBlocksF_irrel`). -/
def findBlocksF : Nat → List Char → List Subtitle
  | 0, _ => []
  | fuel + 1, cs =>
    match cs with
    | [] => []
    | c :: cs' =>
      match matchBlock (c :: cs') with
      | some sr => sr.1 :: findBlocksF fuel sr.2
      | none => findBlocksF fuel cs'

/-- The `re.finditer` scan of `parse_srt`. -/
def findBlocks (cs : List Char) : List Subtitle := findBlocksF (cs.length + 1) cs

theorem findBlocksF_irrel : ∀ (f1 f2 : Nat) (cs : List Char),
    cs.length < f1 → cs.length < f2 → findBlocksF f1 cs = findBlocksF f2 cs := by
  intro f1
  induction f1 with
  | zero =>
    intro f2 cs h1 _
    omega
  | succ f ih =>
    intro f2 cs h1 h2
    cases f2 with
    | zero => omega
    | succ g =>
      cases cs with
      | nil => rfl
      | cons c cs' =>
        show (match matchBlock (c :: cs') with
          | some sr => sr.1 :: findBlocksF f sr.2
          | none => findBlocksF f cs') =
          (match matchBlock (c :: cs') with
          | some sr => sr.1 :: findBlocksF g sr.2
          | none => findBlocksF g cs')
        cases hm : matchBlock (c :: cs') with
        | some sr =>
          have hlt := matchBlock_lt hm
          simp only [List.length_cons] at h1 h2 hlt
          show sr.1 :: findBlocksF f sr.2 = sr.1 :: findBlocksF g sr.2
          rw [ih g sr.2 (by omega) (by omega)]
        | none =>
          simp only [List.length_cons] at h1 h2
          show findBlocksF f cs' = findBlocksF g cs'
          rw [ih g cs' (by omega) (by omega)]

theorem findBlocks_nil : findBlocks [] = [] := rfl

/-- The one-step unfolding of the scan. -/
theorem findBlocks_cons (c : Char) (cs' : List Char) :
    findBlocks (c :: cs') =
      match matchBlock (c :: cs') with
      | some sr => sr.1 :: findBlocks sr.2
      | none => findBlocks cs' := by
  have hstep : findBlocks (c :: cs') =
      match matchBlock (c :: cs') with
      | some sr => sr.1 :: findBlocksF (c :: cs').length sr.2
      | none => findBlocksF (c :: cs').length cs' := rfl
  rw [hstep]
  cases hm : matchBlock (c :: cs') with
  | some sr =>
    have hlt := matchBlock_lt hm
    exact congrArg (sr.1 :: ·)
      (findBlocksF_irrel (c :: cs').length (sr.2.length + 1) sr.2 hlt (by omega))
  | none =>
    exact findBlocksF_irrel (c :: cs').length (cs'.length + 1) cs' (by simp) (by omega)

/-- `SubtitleTranslator.parse_srt`. -/
def parse_srt (content : String) : List Subtitle := findBlocks content.toList

/-- The characters written for one record by `save_progress`:
index, newline, time range line, newline, text, blank line. -/
def srtChars (s : Subtitle) : List Char :=
  s.index.toList ++ '\n' ::
    (s.start_time.toList ++ ' ' :: '-' :: '-' :: '>' :: ' ' ::
      (s.end_time.toList ++ '\n' :: (s.text.toList ++ ['\n', '\n'])))

/-- `SubtitleTranslator.save_progress`: the full text written for a record
sequence (the serializer; also used for the final output file). -/
def save_progress (subs : List Subtitle) : String :=
  ((subs.map srtChars).flatten).asString

/-- Does the list start with a newline? -/
def headIsNl : List Char → Bool
  | [] => false
  | c :: _ => c == '\n'

/-- No two consecutive newline characters. -/
def noDoubleNl : List Char → Bool
  | [] => true
  | c :: cs => !(c == '\n' && headIsNl cs) && noDoubleNl cs

/-- The batch delimiter: newline, three hyphens, newline. -/
def delimChars : List Char := ['\n', '-', '-', '-', '\n']

/-- If `pre` is a prefix of the list, return the remainder. -/
def stripPre : List Char → List Char → Option (List Char)
  | [], l => some l
  | _ :: _, [] => none
  | p :: ps, c :: cs => if p = c then stripPre ps cs else none

theorem stripPre_len {pre l r : List Char} (h : stripPre pre l = some r) :
    r.length + pre.length = l.length := by
  induction pre generalizing l r with
  | nil =>
    simp only [stripPre, Option.some_inj] at h
    simp [h]
  | cons p ps ih =>
    cases l with
    | nil => simp [stripPre] at h
    | cons c cs =>
      simp only [stripPre] at h
      split at h
      · have := ih h
        simp only [List.length_cons]
        omega
      · cases h

/-- Python `str.split` with the fixed separator of the batch loop:
left-to-right, non-overlapping occurrences.  `acc` is the current segment,
reversed; the fuel only bounds the recursion (a separator consumes five
characters, a non-match one, so the input length suffices). -/
def splitOnDelimF : Nat → List Char → List Char → List (List Char)
  | _, acc, [] => [acc.reverse]
  | 0, acc, _ :: _ => [acc.reverse]
  | fuel + 1, acc, c :: cs =>
    match stripPre delimChars (c :: cs) with
    | some rest => acc.reverse :: splitOnDelimF fuel [] rest
    | none => splitOnDelimF fuel (c :: acc) cs

/-- Python `str.split` on the batch delimiter. -/
def splitOnDelim (acc : List Char) (l : List Char) : List (List Char) :=
  splitOnDelimF l.length acc l

/-- `translated_text.split("\n---\n")` of the batch loop. -/
def splitParts (s : String) : List String := (splitOnDelim [] s.toList).map List.asString

/-- `"\n---\n".join(sub['text'] for sub in batch)` of the batch loop. -/
def combineTexts (batch : List Subtitle) : String :=
  String.intercalate "\n---\n" (batch.map (·.text))

/-- Outcome of the per-batch call to the translation client, as seen by the
orchestrator: a returned string (either a translation or the identity
fallback), a `KeyboardInterrupt` delivered while the batch was in flight, or
any other unexpected exception. -/
inductive TransResult where
  | ok (t : String)
  | interrupt
  | err
deriving DecidableEq, Repr

/-- Final state of one orchestration run. -/
inductive RunOutcome where
  | completed
  | interrupted
  | failed
deriving DecidableEq, Repr

/-- Observable result of `translate_subtitles`: the outcome, the content of
the progress sidecar file (`none` = the file does not exist afterwards) and
the content written to the output file (`none` = not written). -/
structure RunResult where
  outcome : RunOutcome
  progress : Option String
  output : Option String
deriving DecidableEq, Repr

/-- `subtitles[i:i+batch_size]` slicing of the batch loop, driven by fuel
(each step drops at least one element, so the input length suffices). -/
def chunksF : Nat → Nat → List α → List (List α)
  | _, _, [] => []
  | 0, _, _ :: _ => []
  | fuel + 1, n, c :: cs => (c :: cs).take n :: chunksF fuel n ((c :: cs).drop n)

/-- `subtitles[i:i+batch_size]` slicing of the batch loop. -/
def chunks (n : Nat) (l : List α) : List (List α) := chunksF l.length n l

/-- The inner loop `for j, part in enumerate(translated_parts)`: pair parts
with batch entries positionally; the boolean is `true` when the loop runs
past the end of the batch (`IndexError` on `batch[j]`).  The first component
is the list of records appended before any such error. -/
def assignParts : List Subtitle → List String → List Subtitle × Bool
  | _, [] => ([], false)
  | [], _ :: _ => ([], true)
  | b :: bs, p :: ps =>
    let r := assignParts bs ps
    ({ b with text := pyStripS p } :: r.1, r.2)

/-- The `try` loop of `translate_subtitles` over the batches, driven by the
oracle `oracle` (argument: zero-based batch number).  Returns the outcome,
the accumulated `translated_subtitles`, and the progress-file content. -/
def runLoop (oracle : Nat → TransResult) :
    List (List Subtitle) → Nat → List Subtitle → Option String →
      RunOutcome × List Subtitle × Option String
  | [], _, acc, prog => (.completed, acc, prog)
  | b :: bs, k, acc, prog =>
    match oracle k with
    | .interrupt => (.interrupted, acc, some (save_progress acc))
    | .err => (.failed, acc, some (save_progress acc))
    | .ok t =>
      let r := assignParts b (splitParts t)
      let acc2 := acc ++ r.1
      if r.2 then (.failed, acc2, some (save_progress acc2))
      else runLoop oracle bs (k + 1) acc2 (some (save_progress acc2))

/-- `SubtitleTranslator.translate_subtitles`: parse, batch (size 5), run the
loop; on completion write the output and delete the progress file, on
interruption or failure leave the progress file and do not write the
output. -/
def translate_subtitles (oracle : Nat → TransResult) (content : String) : RunResult :=
  match runLoop oracle (chunks 5 (parse_srt content)) 0 [] none with
  | (.completed, acc, _) => ⟨.completed, none, some (save_progress acc)⟩
  | (.interrupted, _, prog) => ⟨.interrupted, prog, none⟩
  | (.failed, _, prog) => ⟨.failed, prog, none⟩

/-- The records contributed by the first `j` batches (batch numbers starting
at `k`): per batch, the records its translation produced. -/
def accAfter (oracle : Nat → TransResult) :
    List (List Subtitle) → Nat → Nat → List Subtitle
  | _, _, 0 => []
  | [], _, _ + 1 => []
  | b :: bs, k, j + 1 =>
    (match oracle k with
     | .ok t => (assignParts b (splitParts t)).1
     | _ => []) ++ accAfter oracle bs (k + 1) j

/-- The batch call returned a string and pairing it with the batch raised no
out-of-range error. -/
def batchOk (b : List Subtitle) : TransResult → Bool
  | .ok t => !(assignParts b (splitParts t)).2
  | _ => false

/-- The batch call returned a string splitting into exactly as many parts as
the batch has records. -/
def shapeOk (b : List Subtitle) : TransResult → Bool
  | .ok t => (splitParts t).length == b.length
  | _ => false

/-- The fields the orchestrator copies through unchanged from each source
record. -/
def keyOf (s : Subtitle) : String × String × String :=
  (s.index, s.start_time, s.end_time)

/-- `self.max_retries` of the translation client. -/
def max_retries : Nat := 3

/-- The instruction prompt built by `translate_text`. -/
def buildPrompt (text target_language : String) : String :=
  "Translate only the following text to " ++ target_language ++
    ". Use lowercase unless grammatically required. Do not add any commentary or additional text:\n\n"
    ++ text

/-- The retry loop `for attempt in range(self.max_retries)` of
`translate_text`, recursing on the number of remaining attempts:
`resp attempt` is the outcome of the request on that attempt (`none` = any
exception).  A success returns the response text; the last failed attempt
(no attempt remaining after it) returns the fallback text; with a zero
retry budget the loop body never runs and Python returns `None`. -/
def attemptLoop (resp : Nat → Option String) (fallback : String) :
    Nat → Nat → Option String
  | _, 0 => none
  | attempt, rem + 1 =>
    match resp attempt with
    | some r => some r
    | none =>
      if rem = 0 then some fallback
      else attemptLoop resp fallback (attempt + 1) rem

/-- `SubtitleTranslator.translate_text`: build the prompt from the text and
target language, then run the bounded retry loop against the remote service
`net` (argument: the prompt and the attempt number). -/
def translate_text (net : String → Nat → Option String)
    (text : String) (target_language : String) : Option String :=
  attemptLoop (net (buildPrompt text target_language)) text 0 max_retries

/-- An abstract SRT block as described by the spec grammar: an index line, a
time-range line, one or more text lines. -/
structure RawBlock where
  idx : List Char
  t1 : List Char
  t2 : List Char
  lines : List (List Char)
deriving DecidableEq, Repr

/-- A well-formed timestamp. -/
def timeOk (t : List Char) : Bool := shapeHolds timeShape t

/-- Well-formedness of a block per the spec grammar: a nonempty index of
digits, two well-formed timestamps, and one or more nonempty text lines
containing no newline (an empty line would be the blank-line terminator). -/
def wfBlock (b : RawBlock) : Prop :=
  b.idx ≠ [] ∧ (∀ c ∈ b.idx, c.isDigit = true) ∧
    timeOk b.t1 = true ∧ timeOk b.t2 = true ∧
    b.lines ≠ [] ∧ ∀ l ∈ b.lines, l ≠ [] ∧ '\n' ∉ l

instance (b : RawBlock) : Decidable (wfBlock b) := by
  unfold wfBlock
  infer_instance

/-- The raw text-line region of a block: each line followed by its newline. -/
def linesChars (lines : List (List Char)) : List Char :=
  (lines.map (· ++ ['\n'])).flatten

/-- Render a block as SRT text; `blankTerm` states whether the block is
closed by a blank line (otherwise it is closed by the end of input). -/
def renderBlock (b : RawBlock) (blankTerm : Bool) : List Char :=
  b.idx ++ '\n' ::
    (b.t1 ++ ' ' :: '-' :: '-' :: '>' :: ' ' ::
      (b.t2 ++ '\n' :: (linesChars b.lines ++ if blankTerm then ['\n'] else [])))

/-- Render a sequence of blocks: every block but the last is closed by a
blank line, the last by a blank line or by the end of input per
`finalBlank`. -/
def renderBlocks : List RawBlock → Bool → List Char
  | [], _ => []
  | [b], finalBlank => renderBlock b finalBlank
  | b :: b2 :: bs, finalBlank => renderBlock b true ++ renderBlocks (b2 :: bs) finalBlank

/-- The record the parser is expected to produce for a block. -/
def toSub (b : RawBlock) : Subtitle :=
  ⟨b.idx.asString, b.t1.asString, b.t2.asString, (pyStrip (linesChars b.lines)).asString⟩

/-- The transformation the spec claims for a block's text: removal of
trailing whitespace only, keeping leading whitespace. -/
def rightTrimOnly (s : String) : String := (dropTrail s.toList).asString


/-- Does the list end with a newline? -/
def lastIsNl : List Char → Bool
  | [] => false
  | [c] => c == '\n'
  | _ :: c :: cs => lastIsNl (c :: cs)

/-- The invariant holding of every record the parser can produce: a nonempty
all-digit index, two timestamps of the regex shape, and a text that is a
fixed point of `str.strip` and has no blank line inside. -/
def wfSub (s : Subtitle) : Prop :=
  s.index.toList ≠ [] ∧ (∀ c ∈ s.index.toList, c.isDigit = true) ∧
    shapeHolds timeShape s.start_time.toList = true ∧
    shapeHolds timeShape s.end_time.toList = true ∧
    pyStrip s.text.toList = s.text.toList ∧ noDoubleNl s.text.toList = true

instance (s : Subtitle) : Decidable (wfSub s) := by
  unfold wfSub
  infer_instance

/-! ## Properties of the strip operations -/

theorem dropTrail_length_le (l : List Char) : (dropTrail l).length ≤ l.length := by
  induction l with
  | nil => simp [dropTrail]
  | cons c cs ih =>
    simp only [dropTrail]
    split
    · split <;> simp only [List.length_nil, List.length_cons, List.length_singleton] <;> omega
    · rename_i d ds heq
      rw [heq] at ih
      simp only [List.length_cons] at ih ⊢
      omega

theorem dropWhile_length_le (p : Char → Bool) (l : List Char) :
    (l.dropWhile p).length ≤ l.length := by
  induction l with
  | nil => simp
  | cons c cs ih =>
    by_cases h : p c
    · rw [List.dropWhile_cons_of_pos h]
      simp only [List.length_cons]
      omega
    · rw [List.dropWhile_cons_of_neg h]

theorem dropWhile_of_length_eq {p : Char → Bool} {l : List Char}
    (h : (l.dropWhile p).length = l.length) : l.dropWhile p = l := by
  cases l with
  | nil => simp
  | cons c cs =>
    by_cases hp : p c
    · rw [List.dropWhile_cons_of_pos hp] at h
      have := dropWhile_length_le p cs
      simp only [List.length_cons] at h
      omega
    · rw [List.dropWhile_cons_of_neg hp]

theorem dropTrail_splits (l : List Char) : ∃ s, dropTrail l ++ s = l := by
  induction l with
  | nil => exact ⟨[], rfl⟩
  | cons c cs ih =>
    obtain ⟨s, hs⟩ := ih
    simp only [dropTrail]
    split
    · rename_i heq
      rw [heq] at hs
      split
      · exact ⟨c :: cs, rfl⟩
      · exact ⟨s, by simpa using hs⟩
    · rename_i d ds heq
      rw [heq] at hs
      exact ⟨s, by simpa using hs⟩

theorem dropTrail_of_length_eq {l : List Char}
    (h : (dropTrail l).length = l.length) : dropTrail l = l := by
  obtain ⟨s, hs⟩ := dropTrail_splits l
  have hl := congrArg List.length hs
  simp only [List.length_append] at hl
  have : s = [] := List.length_eq_zero.mp (by omega)
  rw [this] at hs
  simpa using hs

/-- A fixed point of `pyStrip` is a fixed point of both halves. -/
theorem pyStrip_fixed {l : List Char} (h : pyStrip l = l) :
    l.dropWhile isSpace = l ∧ dropTrail l = l := by
  unfold pyStrip at h
  have h1 : (dropTrail (l.dropWhile isSpace)).length = l.length := by rw [h]
  have h2 := dropTrail_length_le (l.dropWhile isSpace)
  have h3 := dropWhile_length_le isSpace l
  have h4 : (l.dropWhile isSpace).length = l.length := by omega
  have h5 := dropWhile_of_length_eq h4
  rw [h5] at h
  exact ⟨h5, h⟩

theorem dropTrail_append_space {c : Char} (hc : isSpace c = true) (l : List Char) :
    dropTrail (l ++ [c]) = dropTrail l := by
  induction l with
  | nil => simp [dropTrail, hc]
  | cons a as ih =>
    simp only [List.cons_append, dropTrail]
    rw [show as.append [c] = as ++ [c] from rfl, ih]

/-- The head of a nonempty stripped text is not whitespace. -/
theorem pyStrip_head_not_space {c : Char} {cs : List Char}
    (h : pyStrip (c :: cs) = c :: cs) : isSpace c = false := by
  obtain ⟨h1, _⟩ := pyStrip_fixed h
  cases hcs : isSpace c
  · rfl
  · rw [List.dropWhile_cons_of_pos hcs] at h1
    have hl := dropWhile_length_le isSpace cs
    have := congrArg List.length h1
    simp only [List.length_cons] at this
    omega

/-- Appending one trailing newline does not change a stripped text. -/
theorem pyStrip_append_nl {t : List Char} (h : pyStrip t = t) :
    pyStrip (t ++ ['\n']) = t := by
  cases t with
  | nil => rfl
  | cons c cs =>
    obtain ⟨h1, h2⟩ := pyStrip_fixed h
    have hc : isSpace c = false := pyStrip_head_not_space h
    have hdw : ((c :: cs) ++ ['\n']).dropWhile isSpace = (c :: cs) ++ ['\n'] := by
      rw [List.cons_append, List.dropWhile_cons_of_neg (by simp [hc])]
    unfold pyStrip
    rw [hdw, dropTrail_append_space (by decide), h2]

/-! ## Newline structure lemmas -/

theorem noDoubleNl_cons {c : Char} {cs : List Char} (h : noDoubleNl (c :: cs) = true) :
    noDoubleNl cs = true ∧ (c = '\n' → headIsNl cs = false) := by
  simp only [noDoubleNl, Bool.and_eq_true, Bool.not_eq_true'] at h
  refine ⟨h.2, fun hc => ?_⟩
  subst hc
  simpa using h.1

theorem noDoubleNl_cons_of {c : Char} {cs : List Char} (h1 : noDoubleNl cs = true)
    (h2 : c = '\n' → headIsNl cs = false) : noDoubleNl (c :: cs) = true := by
  simp only [noDoubleNl, Bool.and_eq_true, Bool.not_eq_true']
  refine ⟨?_, h1⟩
  by_cases hc : c = '\n'
  · simp [hc, h2 hc]
  · simp [hc]

theorem headIsNl_of_dropTrail {l : List Char} (h : headIsNl (dropTrail l) = true) :
    headIsNl l = true := by
  obtain ⟨s, hs⟩ := dropTrail_splits l
  cases hd : dropTrail l with
  | nil => rw [hd] at h; simp [headIsNl] at h
  | cons d ds =>
    rw [hd] at h hs
    rw [← hs, List.cons_append]
    simpa [headIsNl] using h

theorem noDoubleNl_dropWhile (p : Char → Bool) {l : List Char}
    (h : noDoubleNl l = true) : noDoubleNl (l.dropWhile p) = true := by
  induction l with
  | nil => simpa using h
  | cons c cs ih =>
    obtain ⟨h1, _⟩ := noDoubleNl_cons h
    by_cases hp : p c
    · rw [List.dropWhile_cons_of_pos hp]
      exact ih h1
    · rw [List.dropWhile_cons_of_neg hp]
      exact h

theorem noDoubleNl_dropTrail {l : List Char} (h : noDoubleNl l = true) :
    noDoubleNl (dropTrail l) = true := by
  induction l with
  | nil => simpa using h
  | cons c cs ih =>
    obtain ⟨h1, h2⟩ := noDoubleNl_cons h
    simp only [dropTrail]
    split
    · split <;> simp [noDoubleNl, headIsNl]
    · rename_i d ds heq
      rw [← heq]
      refine noDoubleNl_cons_of (ih h1) (fun hc => ?_)
      cases hh : headIsNl (dropTrail cs)
      · rfl
      · exact absurd (headIsNl_of_dropTrail hh) (by simp [h2 hc])

theorem noDoubleNl_pyStrip {l : List Char} (h : noDoubleNl l = true) :
    noDoubleNl (pyStrip l) = true :=
  noDoubleNl_dropTrail (noDoubleNl_dropWhile isSpace h)

theorem lastIsNl_cons {c : Char} (u : List Char) (hu : u ≠ []) :
    lastIsNl (c :: u) = lastIsNl u := by
  cases u with
  | nil => exact absurd rfl hu
  | cons d ds => rfl

theorem lastIsNl_of_dropTrail_eq {l : List Char} (h : dropTrail l = l) :
    lastIsNl l = false := by
  induction l with
  | nil => rfl
  | cons c cs ih =>
    cases cs with
    | nil =>
      simp only [dropTrail] at h
      by_cases hs : isSpace c = true
      · rw [if_pos hs] at h
        cases h
      · simp only [lastIsNl]
        cases hb : (c == '\n')
        · rfl
        · exact absurd (by simp only [isSpace, hb]; simp : isSpace c = true) hs
    | cons c2 cs2 =>
      simp only [dropTrail] at h
      split at h
      · rename_i heq
        split at h <;> cases h
      · rename_i d ds heq
        have : d :: ds = c2 :: cs2 := by
          have := h
          injection this with _ h2
        rw [this] at heq
        rw [lastIsNl_cons _ (by simp)]
        exact ih heq

/-! ## Soundness and completeness of the elementary matchers -/

theorem takeDigits_digits (cs : List Char) :
    ∀ c ∈ (takeDigits cs).1, c.isDigit = true := by
  induction cs with
  | nil => intro c hc; simp [takeDigits] at hc
  | cons a as ih =>
    intro c hc
    simp only [takeDigits] at hc
    split at hc
    · rename_i hd
      simp only [List.mem_cons] at hc
      cases hc with
      | inl h => rw [h]; exact hd
      | inr h => exact ih c h
    · simp at hc

theorem takeDigits_exact {ds : List Char} (hds : ∀ c ∈ ds, c.isDigit = true)
    (r : List Char) : takeDigits (ds ++ '\n' :: r) = (ds, '\n' :: r) := by
  induction ds with
  | nil =>
    simp only [List.nil_append, takeDigits]
    rw [if_neg (by simp)]
  | cons d ds ih =>
    have hd : d.isDigit = true := hds d (by simp)
    simp only [List.cons_append, takeDigits, List.append_eq]
    rw [if_pos hd, ih (fun c hc => hds c (by simp [hc]))]

theorem shapeHolds_of_matchShape {spec : List (Char → Bool)} {cs t r : List Char}
    (h : matchShape spec cs = some (t, r)) : shapeHolds spec t = true := by
  induction spec generalizing cs t r with
  | nil =>
    simp only [matchShape, Option.some_inj] at h
    cases h
    rfl
  | cons p ps ih =>
    cases cs with
    | nil => simp [matchShape] at h
    | cons c cs =>
      simp only [matchShape] at h
      split at h
      · rename_i hp
        cases hm : matchShape ps cs with
        | none => rw [hm] at h; cases h
        | some tr =>
          rw [hm] at h
          simp only [Option.map_some', Option.some_inj] at h
          cases h
          simp only [shapeHolds, Bool.and_eq_true]
          exact ⟨hp, ih hm⟩
      · cases h

theorem matchShape_complete {spec : List (Char → Bool)} {t : List Char}
    (h : shapeHolds spec t = true) (r : List Char) :
    matchShape spec (t ++ r) = some (t, r) := by
  induction spec generalizing t with
  | nil =>
    cases t with
    | nil => rfl
    | cons c cs => simp [shapeHolds] at h
  | cons p ps ih =>
    cases t with
    | nil => simp [shapeHolds] at h
    | cons c cs =>
      simp only [shapeHolds, Bool.and_eq_true] at h
      simp only [List.cons_append, matchShape, List.append_eq]
      rw [if_pos h.1, ih h.2]
      rfl

/-! ## Invariants of the body matcher -/

theorem matchBody_matchTail_noDouble (cs : List Char) :
    (∀ b r, matchBody cs = some (b, r) → noDoubleNl b = true ∧ headIsNl b = false) ∧
      (∀ b r, matchTail cs = some (b, r) → noDoubleNl b = true) := by
  induction cs with
  | nil =>
    constructor
    · intro b r h
      simp only [matchBody, Option.some_inj] at h
      cases h
      exact ⟨rfl, rfl⟩
    · intro b r h
      simp [matchTail] at h
  | cons c cs ih =>
    constructor
    · intro b r h
      simp only [matchBody] at h
      split at h
      · cases h
        exact ⟨rfl, rfl⟩
      · rename_i hc
        cases hm : matchTail cs with
        | none => rw [hm] at h; cases h
        | some br =>
          rw [hm] at h
          simp only [Option.map_some', Option.some_inj] at h
          cases h
          have hbr := ih.2 br.1 br.2 (by rw [hm])
          refine ⟨noDoubleNl_cons_of hbr (fun hcc => absurd hcc hc), ?_⟩
          simp [headIsNl, hc]
    · intro b r h
      simp only [matchTail] at h
      split at h
      · rename_i hc
        cases hm : matchBody cs with
        | none => rw [hm] at h; cases h
        | some br =>
          rw [hm] at h
          simp only [Option.map_some', Option.some_inj] at h
          cases h
          obtain ⟨hb1, hb2⟩ := ih.1 br.1 br.2 (by rw [hm])
          exact noDoubleNl_cons_of hb1 (fun _ => hb2)
      · rename_i hc
        cases hm : matchTail cs with
        | none => rw [hm] at h; cases h
        | some br =>
          rw [hm] at h
          simp only [Option.map_some', Option.some_inj] at h
          cases h
          have hbr := ih.2 br.1 br.2 (by rw [hm])
          exact noDoubleNl_cons_of hbr (fun hcc => absurd hcc hc)

/-! ## Re-parsing a serialized body -/

theorem matchTail_body_rt (rest : List Char) (u : List Char) :
    (noDoubleNl u = true → lastIsNl u = false →
      matchTail (u ++ '\n' :: '\n' :: rest) = some (u ++ ['\n'], rest)) ∧
    (noDoubleNl u = true → lastIsNl u = false → headIsNl u = false → u ≠ [] →
      matchBody (u ++ '\n' :: '\n' :: rest) = some (u ++ ['\n'], rest)) := by
  induction u with
  | nil =>
    exact ⟨fun _ _ => rfl, fun _ _ _ hne => absurd rfl hne⟩
  | cons c u ih =>
    have hbody : ∀ z : List Char, matchBody (c :: z) =
        if c = '\n' then some ([], z)
        else (matchTail z).map (fun br => (c :: br.1, br.2)) :=
      fun z => rfl
    have htail : ∀ z : List Char, matchTail (c :: z) =
        if c = '\n' then (matchBody z).map (fun br => ('\n' :: br.1, br.2))
        else (matchTail z).map (fun br => (c :: br.1, br.2)) :=
      fun z => rfl
    constructor
    · intro hnd hlast
      obtain ⟨hnd2, hnd3⟩ := noDoubleNl_cons hnd
      rw [List.cons_append, htail]
      by_cases hc : c = '\n'
      · rw [if_pos hc]
        subst hc
        have hune : u ≠ [] := by
          intro hu
          rw [hu] at hlast
          simp [lastIsNl] at hlast
        have hlast2 : lastIsNl u = false := by
          rw [lastIsNl_cons u hune] at hlast
          exact hlast
        rw [ih.2 hnd2 hlast2 (hnd3 rfl) hune]
        rfl
      · rw [if_neg hc]
        have hlast2 : lastIsNl u = false := by
          cases u with
          | nil => rfl
          | cons d ds => exact hlast
        rw [ih.1 hnd2 hlast2]
        rfl
    · intro hnd hlast hhead _
      obtain ⟨hnd2, _⟩ := noDoubleNl_cons hnd
      have hc : ¬c = '\n' := by
        intro hcc
        simp only [headIsNl] at hhead
        rw [hcc] at hhead
        simp at hhead
      have hlast2 : lastIsNl u = false := by
        cases u with
        | nil => rfl
        | cons d ds => exact hlast
      rw [List.cons_append, hbody, if_neg hc, ih.1 hnd2 hlast2]
      rfl

/-- Re-parsing a stripped nonempty text followed by the blank-line
terminator: the matcher consumes the text, its final newline and the
terminator newline, giving back the text with one trailing newline. -/
theorem matchBody_stripped {t : List Char} (rest : List Char)
    (hfix : pyStrip t = t) (hnd : noDoubleNl t = true) (hne : t ≠ []) :
    matchBody (t ++ '\n' :: '\n' :: rest) = some (t ++ ['\n'], rest) := by
  obtain ⟨_, h2⟩ := pyStrip_fixed hfix
  have hlast : lastIsNl t = false := lastIsNl_of_dropTrail_eq h2
  have hhead : headIsNl t = false := by
    cases ht : t with
    | nil => rfl
    | cons c cs =>
      rw [ht] at hfix
      have := pyStrip_head_not_space hfix
      simp only [headIsNl]
      cases hb : (c == '\n')
      · rfl
      · have : c = '\n' := by simpa using hb
        rw [this] at hfix
        have := pyStrip_head_not_space hfix
        simp [isSpace] at this
  exact (matchTail_body_rt rest t).2 hnd hlast hhead hne

/-! ## String coercion facts -/

theorem toList_asString (l : List Char) : l.asString.toList = l := rfl

theorem asString_toList (s : String) : s.toList.asString = s := rfl

/-! ## Idempotence of the strip -/

theorem dropWhile_head_false {p : Char → Bool} {l : List Char} {c : Char} {t : List Char}
    (h : l.dropWhile p = c :: t) : p c = false := by
  induction l with
  | nil => simp at h
  | cons a as ih =>
    by_cases hp : p a
    · rw [List.dropWhile_cons_of_pos hp] at h
      exact ih h
    · rw [List.dropWhile_cons_of_neg hp] at h
      injection h with h1 _
      rw [← h1]
      cases hpa : p a
      · rfl
      · exact absurd hpa hp

theorem dropTrail_idem (l : List Char) : dropTrail (dropTrail l) = dropTrail l := by
  induction l with
  | nil => rfl
  | cons c cs ih =>
    have hstep : dropTrail (c :: cs) =
        match dropTrail cs with
        | [] => if isSpace c then [] else [c]
        | d :: ds => c :: d :: ds := rfl
    cases heq : dropTrail cs with
    | nil =>
      rw [hstep, heq]
      by_cases hsp : isSpace c = true
      · rw [if_pos hsp]
        rfl
      · rw [if_neg hsp]
        rw [show dropTrail [c] = if isSpace c then [] else [c] from rfl, if_neg hsp]
    | cons d ds =>
      rw [hstep, heq]
      have h2 : dropTrail (d :: ds) = d :: ds := by
        rw [← heq]
        exact ih
      rw [show dropTrail (c :: d :: ds) =
        (match dropTrail (d :: ds) with
         | [] => if isSpace c then [] else [c]
         | e :: es => c :: e :: es) from rfl, h2]

theorem dropTrail_head_eq {l : List Char} {c : Char} {ms : List Char}
    (h : dropTrail l = c :: ms) : ∃ t, l = c :: t := by
  obtain ⟨s, hs⟩ := dropTrail_splits l
  rw [h] at hs
  exact ⟨ms ++ s, by rw [← hs]; simp⟩

theorem pyStrip_idem (l : List Char) : pyStrip (pyStrip l) = pyStrip l := by
  unfold pyStrip
  have hdw : (dropTrail (l.dropWhile isSpace)).dropWhile isSpace
      = dropTrail (l.dropWhile isSpace) := by
    cases hd : dropTrail (l.dropWhile isSpace) with
    | nil => rfl
    | cons c ms =>
      obtain ⟨t, ht⟩ := dropTrail_head_eq hd
      have hcp : isSpace c = false := dropWhile_head_false ht
      rw [List.dropWhile_cons_of_neg (by simp [hcp])]
  rw [hdw, dropTrail_idem]

/-! ## The parser invariant -/

theorem matchBlock_wf {cs : List Char} {s : Subtitle} {rest : List Char}
    (h : matchBlock cs = some (s, rest)) : wfSub s := by
  unfold matchBlock at h
  cases hd : takeDigits cs with
  | mk ds r1 =>
    rw [hd] at h
    cases ds with
    | nil => cases h
    | cons d ds =>
      simp only [Option.bind_eq_bind] at h
      cases h2 : matchNl r1 with
      | none => rw [h2] at h; cases h
      | some r2 =>
        rw [h2] at h
        simp only [Option.some_bind] at h
        cases h3 : matchShape timeShape r2 with
        | none => rw [h3] at h; cases h
        | some t1r =>
          rw [h3] at h
          simp only [Option.some_bind] at h
          cases h4 : matchShape arrowShape t1r.2 with
          | none => rw [h4] at h; cases h
          | some ar =>
            rw [h4] at h
            simp only [Option.some_bind] at h
            cases h5 : matchShape timeShape ar.2 with
            | none => rw [h5] at h; cases h
            | some t2r =>
              rw [h5] at h
              simp only [Option.some_bind] at h
              cases h6 : matchNl t2r.2 with
              | none => rw [h6] at h; cases h
              | some r6 =>
                rw [h6] at h
                simp only [Option.some_bind] at h
                cases h7 : matchBody r6 with
                | none => rw [h7] at h; cases h
                | some br =>
                  rw [h7] at h
                  simp only [Option.map_some', Option.some_inj] at h
                  have hs : s =
                      ⟨(d :: ds).asString, t1r.1.asString, t2r.1.asString,
                        (pyStrip br.1).asString⟩ := by
                    rw [Prod.mk.injEq] at h
                    exact h.1.symm
                  have hdigs : ∀ c ∈ d :: ds, c.isDigit = true := by
                    have := takeDigits_digits cs
                    rw [hd] at this
                    exact this
                  have hnd : noDoubleNl br.1 = true :=
                    ((matchBody_matchTail_noDouble r6).1 br.1 br.2 (by rw [h7])).1
                  rw [hs]
                  refine ⟨by intro hc; exact List.noConfusion hc, ?_, ?_, ?_, ?_, ?_⟩
                  · rw [toList_asString]
                    exact hdigs
                  · rw [toList_asString]
                    exact shapeHolds_of_matchShape h3
                  · rw [toList_asString]
                    exact shapeHolds_of_matchShape h5
                  · rw [toList_asString, pyStrip_idem]
                  · rw [toList_asString]
                    exact noDoubleNl_pyStrip hnd

theorem findBlocks_wf_aux : ∀ (n : Nat) (cs : List Char), cs.length ≤ n →
    ∀ s ∈ findBlocks cs, wfSub s := by
  intro n
  induction n with
  | zero =>
    intro cs hlen s hs
    have : cs = [] := List.eq_nil_of_length_eq_zero (Nat.le_zero.mp hlen)
    rw [this, findBlocks_nil] at hs
    simp at hs
  | succ n ih =>
    intro cs hlen s hs
    cases cs with
    | nil =>
      rw [findBlocks_nil] at hs
      simp at hs
    | cons c cs' =>
      rw [findBlocks_cons] at hs
      cases hm : matchBlock (c :: cs') with
      | some sr =>
        rw [hm] at hs
        simp only [List.mem_cons] at hs
        cases hs with
        | inl h => rw [h]; exact matchBlock_wf hm
        | inr h =>
          have hlt := matchBlock_lt hm
          simp only [List.length_cons] at hlt hlen
          exact ih sr.2 (by omega) s h
      | none =>
        rw [hm] at hs
        simp only [List.length_cons] at hlen
        exact ih cs' (by omega) s hs

theorem findBlocks_wf {cs : List Char} : ∀ s ∈ findBlocks cs, wfSub s :=
  findBlocks_wf_aux cs.length cs le_rfl

theorem parse_srt_wf {content : String} : ∀ s ∈ parse_srt content, wfSub s :=
  findBlocks_wf

/-! ## Re-parsing serialized records -/

theorem matchBlock_complete {idx t1 t2 : List Char} {Z body rt : List Char}
    (hidx : idx ≠ []) (hdig : ∀ c ∈ idx, c.isDigit = true)
    (ht1 : shapeHolds timeShape t1 = true) (ht2 : shapeHolds timeShape t2 = true)
    (hbody : matchBody Z = some (body, rt)) :
    matchBlock (idx ++ '\n' :: (t1 ++ ' ' :: '-' :: '-' :: '>' :: ' ' ::
      (t2 ++ '\n' :: Z))) =
      some (⟨idx.asString, t1.asString, t2.asString, (pyStrip body).asString⟩, rt) := by
  cases idx with
  | nil => exact absurd rfl hidx
  | cons d ds =>
    unfold matchBlock
    rw [takeDigits_exact hdig]
    show ((matchNl ('\n' :: (t1 ++ ' ' :: '-' :: '-' :: '>' :: ' ' ::
      (t2 ++ '\n' :: Z)))).bind _) = _
    rw [show matchNl ('\n' :: (t1 ++ ' ' :: '-' :: '-' :: '>' :: ' ' ::
      (t2 ++ '\n' :: Z))) = some (t1 ++ ' ' :: '-' :: '-' :: '>' :: ' ' ::
      (t2 ++ '\n' :: Z)) from rfl]
    rw [Option.some_bind]
    rw [matchShape_complete ht1]
    rw [Option.some_bind]
    rw [show (' ' :: '-' :: '-' :: '>' :: ' ' :: (t2 ++ '\n' :: Z))
      = [' ', '-', '-', '>', ' '] ++ (t2 ++ '\n' :: Z) from rfl]
    rw [matchShape_complete (by decide : shapeHolds arrowShape [' ', '-', '-', '>', ' '] = true)]
    rw [Option.some_bind]
    rw [matchShape_complete ht2]
    rw [Option.some_bind]
    rw [show matchNl ('\n' :: Z) = some Z from rfl]
    rw [Option.some_bind]
    rw [hbody]
    rfl

theorem matchBlock_none_not_digit {c : Char} (hc : c.isDigit = false) (r : List Char) :
    matchBlock (c :: r) = none := by
  unfold matchBlock
  have ht : takeDigits (c :: r) = ([], c :: r) := by
    simp only [takeDigits]
    rw [if_neg (by simp [hc])]
  rw [ht]

theorem findBlocks_cons_of_none {c : Char} {r : List Char}
    (h : matchBlock (c :: r) = none) : findBlocks (c :: r) = findBlocks r := by
  rw [findBlocks_cons, h]

theorem findBlocks_cons_of_some {z : List Char} {s : Subtitle} {rt : List Char}
    (hz : z ≠ []) (h : matchBlock z = some (s, rt)) :
    findBlocks z = s :: findBlocks rt := by
  cases z with
  | nil => exact absurd rfl hz
  | cons c cs =>
    rw [findBlocks_cons, h]

/-- Scanning one serialized well-formed record followed by anything: the
record is recovered and scanning continues on the remainder. -/
theorem findBlocks_srtChars {s : Subtitle} (hwf : wfSub s) (rest : List Char) :
    findBlocks (srtChars s ++ rest) = s :: findBlocks rest := by
  obtain ⟨hne, hdig, ht1, ht2, hfix, hnd⟩ := hwf
  have harr : srtChars s ++ rest =
      s.index.toList ++ '\n' :: (s.start_time.toList ++ ' ' :: '-' :: '-' :: '>' :: ' ' ::
        (s.end_time.toList ++ '\n' :: (s.text.toList ++ '\n' :: '\n' :: rest))) := by
    simp [srtChars, List.append_assoc]
  have hne2 : srtChars s ++ rest ≠ [] := by
    rw [harr]
    cases hx : s.index.toList with
    | nil => exact absurd hx hne
    | cons a b => simp
  cases htxt : s.text.toList with
  | nil =>
    have hbody : matchBody (s.text.toList ++ '\n' :: '\n' :: rest)
        = some ([], '\n' :: rest) := by
      rw [htxt]
      rfl
    have hmb := matchBlock_complete hne hdig ht1 ht2 hbody
    rw [← harr] at hmb
    have hsub : (⟨s.index.toList.asString, s.start_time.toList.asString,
        s.end_time.toList.asString, (pyStrip []).asString⟩ : Subtitle) = s := by
      have h4 : (pyStrip []).asString = s.text := by
        rw [show pyStrip [] = ([] : List Char) from rfl]
        rw [show ([] : List Char).asString = "" from rfl]
        rw [show ("" : String) = ([] : List Char).asString from rfl, ← htxt, asString_toList]
      rw [asString_toList, asString_toList, asString_toList, h4]
    rw [hsub] at hmb
    rw [findBlocks_cons_of_some hne2 hmb,
      findBlocks_cons_of_none (matchBlock_none_not_digit (by decide) rest)]
  | cons a b =>
    have hbody : matchBody (s.text.toList ++ '\n' :: '\n' :: rest)
        = some (s.text.toList ++ ['\n'], rest) := by
      refine matchBody_stripped rest ?_ ?_ ?_
      · exact hfix
      · exact hnd
      · rw [htxt]; simp
    have hmb := matchBlock_complete hne hdig ht1 ht2 hbody
    rw [← harr] at hmb
    have hsub : (⟨s.index.toList.asString, s.start_time.toList.asString,
        s.end_time.toList.asString, (pyStrip (s.text.toList ++ ['\n'])).asString⟩ : Subtitle)
        = s := by
      rw [asString_toList, asString_toList, asString_toList, pyStrip_append_nl hfix,
        asString_toList]
    rw [hsub] at hmb
    rw [findBlocks_cons_of_some hne2 hmb]

theorem findBlocks_serialize {subs : List Subtitle} (h : ∀ s ∈ subs, wfSub s) :
    findBlocks ((subs.map srtChars).flatten) = subs := by
  induction subs with
  | nil => simp [findBlocks_nil]
  | cons s rest ih =>
    simp only [List.map_cons, List.flatten_cons]
    rw [findBlocks_srtChars (h s (by simp)) _, ih (fun x hx => h x (by simp [hx]))]

/-- Claim C1: parsing is a left-inverse of serialization: for every input text
(in particular every valid SRT file), serializing the parsed records with
`save_progress` and re-parsing with `parse_srt` yields exactly the same
sequence of records (hence the same (index, start_time, end_time, text)
tuples). -/
theorem parse_srt_save_progress_roundtrip (content : String) :
    parse_srt (save_progress (parse_srt content)) = parse_srt content := by
  unfold parse_srt save_progress
  rw [toList_asString]
  exact findBlocks_serialize (fun s hs => findBlocks_wf s hs)

/-! ## Well-formed blocks (the spec grammar) -/

theorem matchTail_line {u : List Char} (hu : '\n' ∉ u) (v : List Char) :
    matchTail (u ++ '\n' :: v) =
      (matchBody v).map (fun br => (u ++ '\n' :: br.1, br.2)) := by
  induction u with
  | nil =>
    have hb : matchTail ('\n' :: v) =
        (matchBody v).map (fun br => ('\n' :: br.1, br.2)) := rfl
    rw [List.nil_append, hb]
    cases matchBody v with
    | none => rfl
    | some br => rfl
  | cons c u ih =>
    have hc : ¬c = '\n' := by
      intro hcc
      exact hu (by rw [hcc]; simp)
    have hstep : matchTail (c :: (u ++ '\n' :: v)) =
        if c = '\n' then (matchBody (u ++ '\n' :: v)).map (fun br => ('\n' :: br.1, br.2))
        else (matchTail (u ++ '\n' :: v)).map (fun br => (c :: br.1, br.2)) := rfl
    rw [List.cons_append, hstep, if_neg hc, ih (fun hm => hu (by simp [hm]))]
    cases matchBody v with
    | none => rfl
    | some br => rfl

/-- The body matcher over the raw line region of a block: with every line
nonempty and newline-free, it consumes exactly the lines; a following blank
line is consumed as terminator, and the end of input also terminates. -/
theorem matchBody_linesChars {lines : List (List Char)}
    (h : ∀ l ∈ lines, l ≠ [] ∧ '\n' ∉ l) :
    (∀ r, matchBody (linesChars lines ++ '\n' :: r) = some (linesChars lines, r)) ∧
      matchBody (linesChars lines) = some (linesChars lines, []) := by
  induction lines with
  | nil =>
    constructor
    · intro r
      rfl
    · rfl
  | cons l rest ih =>
    obtain ⟨hl1, hl2⟩ := h l (by simp)
    have ihr := ih (fun x hx => h x (by simp [hx]))
    cases l with
    | nil => exact absurd rfl hl1
    | cons a u =>
      have ha : ¬a = '\n' := by
        intro hcc
        exact hl2 (by rw [hcc]; simp)
      have hu : '\n' ∉ u := fun hm => hl2 (by simp [hm])
      have hlc : linesChars ((a :: u) :: rest) = a :: (u ++ '\n' :: linesChars rest) := by
        simp [linesChars]
      constructor
      · intro r
        have hgoal : linesChars ((a :: u) :: rest) ++ '\n' :: r
            = a :: (u ++ '\n' :: (linesChars rest ++ '\n' :: r)) := by
          rw [hlc]
          simp
        have hstep : matchBody (a :: (u ++ '\n' :: (linesChars rest ++ '\n' :: r))) =
            if a = '\n' then some ([], u ++ '\n' :: (linesChars rest ++ '\n' :: r))
            else (matchTail (u ++ '\n' :: (linesChars rest ++ '\n' :: r))).map
              (fun br => (a :: br.1, br.2)) := rfl
        rw [hgoal, hstep, if_neg ha, matchTail_line hu, ihr.1 r, hlc]
        rfl
      · have hstep : matchBody (a :: (u ++ '\n' :: linesChars rest)) =
            if a = '\n' then some ([], u ++ '\n' :: linesChars rest)
            else (matchTail (u ++ '\n' :: linesChars rest)).map
              (fun br => (a :: br.1, br.2)) := rfl
        rw [hlc, hstep, if_neg ha, matchTail_line hu, ihr.2]
        rfl

/-! ## Parsing rendered well-formed blocks -/

theorem findBlocks_renderBlock_true {b : RawBlock} (hwf : wfBlock b) (rest : List Char) :
    findBlocks (renderBlock b true ++ rest) = toSub b :: findBlocks rest := by
  obtain ⟨hne, hdig, ht1, ht2, _, hl⟩ := hwf
  have hbody : matchBody (linesChars b.lines ++ '\n' :: rest)
      = some (linesChars b.lines, rest) := (matchBody_linesChars hl).1 rest
  have hmb := matchBlock_complete hne hdig ht1 ht2 hbody
  have harr : renderBlock b true ++ rest =
      b.idx ++ '\n' :: (b.t1 ++ ' ' :: '-' :: '-' :: '>' :: ' ' ::
        (b.t2 ++ '\n' :: (linesChars b.lines ++ '\n' :: rest))) := by
    simp [renderBlock, List.append_assoc]
  have hne2 : b.idx ++ '\n' :: (b.t1 ++ ' ' :: '-' :: '-' :: '>' :: ' ' ::
      (b.t2 ++ '\n' :: (linesChars b.lines ++ '\n' :: rest))) ≠ [] := by
    cases hx : b.idx with
    | nil => exact absurd hx hne
    | cons p q => simp
  rw [harr, findBlocks_cons_of_some hne2 hmb]
  rfl

theorem findBlocks_renderBlock_last {b : RawBlock} (hwf : wfBlock b) :
    findBlocks (renderBlock b false) = [toSub b] := by
  obtain ⟨hne, hdig, ht1, ht2, _, hl⟩ := hwf
  have hbody : matchBody (linesChars b.lines)
      = some (linesChars b.lines, []) := (matchBody_linesChars hl).2
  have hmb := matchBlock_complete hne hdig ht1 ht2 hbody
  have harr : renderBlock b false =
      b.idx ++ '\n' :: (b.t1 ++ ' ' :: '-' :: '-' :: '>' :: ' ' ::
        (b.t2 ++ '\n' :: linesChars b.lines)) := by
    simp [renderBlock]
  have hne2 : b.idx ++ '\n' :: (b.t1 ++ ' ' :: '-' :: '-' :: '>' :: ' ' ::
      (b.t2 ++ '\n' :: linesChars b.lines)) ≠ [] := by
    cases hx : b.idx with
    | nil => exact absurd hx hne
    | cons p q => simp
  rw [harr, findBlocks_cons_of_some hne2 hmb, findBlocks_nil]
  rfl

theorem findBlocks_renderBlocks {bs : List RawBlock} (h : ∀ b ∈ bs, wfBlock b)
    (finalBlank : Bool) :
    findBlocks (renderBlocks bs finalBlank) = bs.map toSub := by
  induction bs with
  | nil =>
    cases finalBlank with
    | false => exact findBlocks_nil
    | true => exact findBlocks_nil
  | cons b bs ih =>
    cases bs with
    | nil =>
      cases finalBlank with
      | false =>
        rw [show renderBlocks [b] false = renderBlock b false from rfl,
          findBlocks_renderBlock_last (h b (by simp))]
        rfl
      | true =>
        rw [show renderBlocks [b] true = renderBlock b true from rfl,
          show renderBlock b true = renderBlock b true ++ [] by simp,
          findBlocks_renderBlock_true (h b (by simp)) [], findBlocks_nil]
        rfl
    | cons b2 bs2 =>
      rw [show renderBlocks (b :: b2 :: bs2) finalBlank
          = renderBlock b true ++ renderBlocks (b2 :: bs2) finalBlank from rfl,
        findBlocks_renderBlock_true (h b (by simp)) _,
        ih (fun x hx => h x (by simp [hx]))]
      rfl

/-! ## The batch loop -/

theorem assignParts_fst (batch : List Subtitle) (parts : List String) :
    (assignParts batch parts).1 =
      List.zipWith (fun b p => { b with text := pyStripS p }) batch parts := by
  induction batch generalizing parts with
  | nil => cases parts <;> rfl
  | cons b bs ih =>
    cases parts with
    | nil => rfl
    | cons p ps =>
      show { b with text := pyStripS p } :: (assignParts bs ps).1 = _
      rw [ih ps]
      rfl

theorem assignParts_snd (batch : List Subtitle) (parts : List String) :
    (assignParts batch parts).2 = decide (batch.length < parts.length) := by
  induction batch generalizing parts with
  | nil =>
    cases parts with
    | nil => rfl
    | cons p ps =>
      show true = decide (0 < ps.length + 1)
      simp
  | cons b bs ih =>
    cases parts with
    | nil => rfl
    | cons p ps =>
      show (assignParts bs ps).2 = _
      rw [ih ps]
      simp only [List.length_cons, decide_eq_decide]
      omega

theorem zipWith_getD (f : Subtitle → String → Subtitle) :
    ∀ (a : List Subtitle) (b : List String) (j : Nat), j < a.length → j < b.length →
      (List.zipWith f a b).getD j default = f (a.getD j default) (b.getD j "") := by
  intro a
  induction a with
  | nil =>
    intro b j h1 _
    simp at h1
  | cons x xs ih =>
    intro b j h1 h2
    cases b with
    | nil => simp at h2
    | cons y ys =>
      cases j with
      | zero => rfl
      | succ j =>
        simp only [List.zipWith_cons_cons, List.getD_cons_succ]
        exact ih ys j (by simpa using h1) (by simpa using h2)

/-- The one-step unfolding of `runLoop` on a returned translation that does
not overflow the batch: the produced records are appended, the progress file
is overwritten, and the loop continues on the remaining batches. -/
theorem runLoop_step_noerr {oracle : Nat → TransResult} {batch : List Subtitle} {t : String}
    (bs : List (List Subtitle)) (k : Nat) (acc : List Subtitle) (prog : Option String)
    (hok : oracle k = .ok t) (herr : (assignParts batch (splitParts t)).2 = false) :
    runLoop oracle (batch :: bs) k acc prog =
      runLoop oracle bs (k + 1) (acc ++ (assignParts batch (splitParts t)).1)
        (some (save_progress (acc ++ (assignParts batch (splitParts t)).1))) := by
  have hstep : runLoop oracle (batch :: bs) k acc prog =
      match oracle k with
      | .interrupt => (.interrupted, acc, some (save_progress acc))
      | .err => (.failed, acc, some (save_progress acc))
      | .ok t =>
        let r := assignParts batch (splitParts t)
        let acc2 := acc ++ r.1
        if r.2 then (.failed, acc2, some (save_progress acc2))
        else runLoop oracle bs (k + 1) acc2 (some (save_progress acc2)) := rfl
  rw [hstep, hok]
  show (if (assignParts batch (splitParts t)).2 = true
      then ((RunOutcome.failed, acc ++ (assignParts batch (splitParts t)).1,
        some (save_progress (acc ++ (assignParts batch (splitParts t)).1))) :
          RunOutcome × List Subtitle × Option String)
      else runLoop oracle bs (k + 1) (acc ++ (assignParts batch (splitParts t)).1)
        (some (save_progress (acc ++ (assignParts batch (splitParts t)).1)))) = _
  rw [if_neg (by simp [herr])]

/-- The one-step unfolding of `runLoop` on a translation splitting into more
parts than the batch has records: the loop aborts with a failure after the
whole batch has been appended and the progress file written. -/
theorem runLoop_step_overflow {oracle : Nat → TransResult} {batch : List Subtitle} {t : String}
    (bs : List (List Subtitle)) (k : Nat) (acc : List Subtitle) (prog : Option String)
    (hok : oracle k = .ok t) (herr : (assignParts batch (splitParts t)).2 = true) :
    runLoop oracle (batch :: bs) k acc prog =
      (.failed, acc ++ (assignParts batch (splitParts t)).1,
        some (save_progress (acc ++ (assignParts batch (splitParts t)).1))) := by
  have hstep : runLoop oracle (batch :: bs) k acc prog =
      match oracle k with
      | .interrupt => (.interrupted, acc, some (save_progress acc))
      | .err => (.failed, acc, some (save_progress acc))
      | .ok t =>
        let r := assignParts batch (splitParts t)
        let acc2 := acc ++ r.1
        if r.2 then (.failed, acc2, some (save_progress acc2))
        else runLoop oracle bs (k + 1) acc2 (some (save_progress acc2)) := rfl
  rw [hstep, hok]
  show (if (assignParts batch (splitParts t)).2 = true
      then ((RunOutcome.failed, acc ++ (assignParts batch (splitParts t)).1,
        some (save_progress (acc ++ (assignParts batch (splitParts t)).1))) :
          RunOutcome × List Subtitle × Option String)
      else runLoop oracle bs (k + 1) (acc ++ (assignParts batch (splitParts t)).1)
        (some (save_progress (acc ++ (assignParts batch (splitParts t)).1)))) = _
  rw [if_pos herr]

theorem runLoop_interrupt {oracle : Nat → TransResult} :
    ∀ (j : Nat) (bs : List (List Subtitle)) (k : Nat) (acc : List Subtitle)
      (prog : Option String),
      j < bs.length →
      (∀ i, i < j → batchOk (bs.getD i []) (oracle (k + i)) = true) →
      oracle (k + j) = .interrupt →
      runLoop oracle bs k acc prog =
        (.interrupted, acc ++ accAfter oracle bs k j,
          some (save_progress (acc ++ accAfter oracle bs k j))) := by
  intro j
  induction j with
  | zero =>
    intro bs k acc prog hlt _ hint
    cases bs with
    | nil => simp at hlt
    | cons b bs2 =>
      have hstep : runLoop oracle (b :: bs2) k acc prog =
          match oracle k with
          | .interrupt => (.interrupted, acc, some (save_progress acc))
          | .err => (.failed, acc, some (save_progress acc))
          | .ok t =>
            let r := assignParts b (splitParts t)
            let acc2 := acc ++ r.1
            if r.2 then (.failed, acc2, some (save_progress acc2))
            else runLoop oracle bs2 (k + 1) acc2 (some (save_progress acc2)) := rfl
      rw [Nat.add_zero] at hint
      rw [hstep, hint]
      rw [show accAfter oracle (b :: bs2) k 0 = [] from rfl, List.append_nil]
  | succ j ih =>
    intro bs k acc prog hlt hok hint
    cases bs with
    | nil => simp at hlt
    | cons b bs2 =>
      have hb := hok 0 (by omega)
      rw [Nat.add_zero] at hb
      rw [show (b :: bs2).getD 0 [] = b from rfl] at hb
      cases horacle : oracle k with
      | interrupt => rw [horacle] at hb; simp [batchOk] at hb
      | err => rw [horacle] at hb; simp [batchOk] at hb
      | ok t =>
        rw [horacle] at hb
        have herr : (assignParts b (splitParts t)).2 = false := by
          simp only [batchOk, Bool.not_eq_eq_eq_not, Bool.not_true] at hb
          exact hb
        rw [runLoop_step_noerr bs2 k acc prog horacle herr]
        have hok2 : ∀ i, i < j → batchOk (bs2.getD i []) (oracle (k + 1 + i)) = true := by
          intro i hi
          have := hok (i + 1) (by omega)
          rw [show (b :: bs2).getD (i + 1) [] = bs2.getD i [] from rfl] at this
          rw [show k + 1 + i = k + (i + 1) by omega]
          exact this
        have hint2 : oracle (k + 1 + j) = .interrupt := by
          rw [show k + 1 + j = k + (j + 1) by omega]
          exact hint
        rw [ih bs2 (k + 1) (acc ++ (assignParts b (splitParts t)).1) _
          (by simp only [List.length_cons] at hlt; omega) hok2 hint2]
        have hacc : accAfter oracle (b :: bs2) k (j + 1) =
            (assignParts b (splitParts t)).1 ++ accAfter oracle bs2 (k + 1) j := by
          show (match oracle k with
            | .ok t => (assignParts b (splitParts t)).1
            | _ => []) ++ accAfter oracle bs2 (k + 1) j = _
          rw [horacle]
        rw [hacc, ← List.append_assoc]

theorem runLoop_completed {oracle : Nat → TransResult} :
    ∀ (bs : List (List Subtitle)) (k : Nat) (acc : List Subtitle) (prog : Option String),
      (∀ i, i < bs.length → shapeOk (bs.getD i []) (oracle (k + i)) = true) →
      ∃ p, runLoop oracle bs k acc prog =
        (.completed, acc ++ accAfter oracle bs k bs.length, p) := by
  intro bs
  induction bs with
  | nil =>
    intro k acc prog _
    refine ⟨prog, ?_⟩
    show runLoop oracle [] k acc prog = (RunOutcome.completed, acc ++ accAfter oracle [] k 0, prog)
    rw [show accAfter oracle ([] : List (List Subtitle)) k 0 = [] from rfl, List.append_nil]
    rfl
  | cons b bs2 ih =>
    intro k acc prog hshape
    have hb := hshape 0 (by simp)
    rw [Nat.add_zero, show (b :: bs2).getD 0 [] = b from rfl] at hb
    cases horacle : oracle k with
    | interrupt => rw [horacle] at hb; simp [shapeOk] at hb
    | err => rw [horacle] at hb; simp [shapeOk] at hb
    | ok t =>
      rw [horacle] at hb
      have hlen : (splitParts t).length = b.length := by
        simp only [shapeOk, beq_iff_eq] at hb
        exact hb
      have herr : (assignParts b (splitParts t)).2 = false := by
        rw [assignParts_snd]
        simp [hlen]
      rw [runLoop_step_noerr bs2 k acc prog horacle herr]
      have hshape2 : ∀ i, i < bs2.length → shapeOk (bs2.getD i []) (oracle (k + 1 + i)) = true := by
        intro i hi
        have := hshape (i + 1) (by simp only [List.length_cons]; omega)
        rw [show (b :: bs2).getD (i + 1) [] = bs2.getD i [] from rfl] at this
        rw [show k + 1 + i = k + (i + 1) by omega]
        exact this
      obtain ⟨p, hp⟩ := ih (k + 1) (acc ++ (assignParts b (splitParts t)).1) _ hshape2
      refine ⟨p, ?_⟩
      rw [hp]
      have hacc : accAfter oracle (b :: bs2) k (bs2.length + 1) =
          (assignParts b (splitParts t)).1 ++ accAfter oracle bs2 (k + 1) bs2.length := by
        show (match oracle k with
          | .ok t => (assignParts b (splitParts t)).1
          | _ => []) ++ accAfter oracle bs2 (k + 1) bs2.length = _
        rw [horacle]
      rw [show (b :: bs2).length = bs2.length + 1 from rfl, hacc, ← List.append_assoc]

theorem map_keyOf_zipWith :
    ∀ (b : List Subtitle) (parts : List String), parts.length = b.length →
      (List.zipWith (fun s p => { s with text := pyStripS p }) b parts).map keyOf =
        b.map keyOf := by
  intro b
  induction b with
  | nil => intro parts _; simp
  | cons s bs ih =>
    intro parts h
    cases parts with
    | nil => simp at h
    | cons p ps =>
      simp only [List.zipWith_cons_cons, List.map_cons]
      rw [ih ps (by simpa using h)]
      rfl

theorem accAfter_keys {oracle : Nat → TransResult} :
    ∀ (bs : List (List Subtitle)) (k : Nat),
      (∀ i, i < bs.length → shapeOk (bs.getD i []) (oracle (k + i)) = true) →
      (accAfter oracle bs k bs.length).map keyOf = (bs.flatten).map keyOf := by
  intro bs
  induction bs with
  | nil => intro k _; rfl
  | cons b bs2 ih =>
    intro k hshape
    have hb := hshape 0 (by simp)
    rw [Nat.add_zero, show (b :: bs2).getD 0 [] = b from rfl] at hb
    cases horacle : oracle k with
    | interrupt => rw [horacle] at hb; simp [shapeOk] at hb
    | err => rw [horacle] at hb; simp [shapeOk] at hb
    | ok t =>
      rw [horacle] at hb
      have hlen : (splitParts t).length = b.length := by
        simp only [shapeOk, beq_iff_eq] at hb
        exact hb
      have hacc : accAfter oracle (b :: bs2) k (bs2.length + 1) =
          (assignParts b (splitParts t)).1 ++ accAfter oracle bs2 (k + 1) bs2.length := by
        show (match oracle k with
          | .ok t => (assignParts b (splitParts t)).1
          | _ => []) ++ accAfter oracle bs2 (k + 1) bs2.length = _
        rw [horacle]
      have hshape2 : ∀ i, i < bs2.length → shapeOk (bs2.getD i []) (oracle (k + 1 + i)) = true := by
        intro i hi
        have := hshape (i + 1) (by simp only [List.length_cons]; omega)
        rw [show (b :: bs2).getD (i + 1) [] = bs2.getD i [] from rfl] at this
        rw [show k + 1 + i = k + (i + 1) by omega]
        exact this
      rw [show (b :: bs2).length = bs2.length + 1 from rfl, hacc, List.flatten_cons,
        List.map_append, List.map_append, ih (k + 1) hshape2, assignParts_fst,
        map_keyOf_zipWith b (splitParts t) hlen]

theorem chunksF_flatten : ∀ (f n : Nat) (l : List α), l.length ≤ f → 1 ≤ n →
    (chunksF f n l).flatten = l := by
  intro f
  induction f with
  | zero =>
    intro n l hle _
    cases l with
    | nil => rfl
    | cons c cs => simp at hle
  | succ f ih =>
    intro n l hle hn
    cases l with
    | nil => rfl
    | cons c cs =>
      show ((c :: cs).take n :: chunksF f n ((c :: cs).drop n)).flatten = c :: cs
      simp only [List.flatten_cons]
      rw [ih n ((c :: cs).drop n) (by simp only [List.length_drop, List.length_cons] at hle ⊢; omega) hn,
        List.take_append_drop]

theorem chunks_flatten {n : Nat} (hn : 1 ≤ n) (l : List α) :
    (chunks n l).flatten = l :=
  chunksF_flatten l.length n l le_rfl hn

/-! ## Concrete fixtures used by witnesses and counterexamples -/

/-- A small concrete record. -/
def subA : Subtitle := ⟨"1", "00:00:00,000", "00:00:00,001", "a"⟩

/-- A small concrete record. -/
def subB : Subtitle := ⟨"2", "00:00:00,002", "00:00:00,003", "b"⟩

/-- A two-record SRT input. -/
def cexContent : String :=
  "1\n00:00:00,000 --> 00:00:00,001\na\n\n2\n00:00:00,002 --> 00:00:00,003\nb\n\n"

/-- A six-record SRT input (two batches at batch size five). -/
def content6 : String :=
  "1\n00:00:00,000 --> 00:00:00,001\na\n\n2\n00:00:00,000 --> 00:00:00,001\nb\n\n" ++
  "3\n00:00:00,000 --> 00:00:00,001\nc\n\n4\n00:00:00,000 --> 00:00:00,001\nd\n\n" ++
  "5\n00:00:00,000 --> 00:00:00,001\ne\n\n6\n00:00:00,000 --> 00:00:00,001\nf\n\n"

/-- A five-part reply for the first batch of `content6`. -/
def reply5 : String := "p\n---\nq\n---\nr\n---\ns\n---\nu"

/-- Oracle interrupting the second batch. -/
def oracleInt : Nat → TransResult := fun k => if k = 0 then .ok reply5 else .interrupt

/-- Oracle answering both batches of `content6` with exactly shaped replies. -/
def oracleOk6 : Nat → TransResult := fun k => if k = 0 then .ok reply5 else .ok "z"

/-- The records accumulated by a full run over all batches. -/
def accAll (oracle : Nat → TransResult) (content : String) : List Subtitle :=
  accAfter oracle (chunks 5 (parse_srt content)) 0 (chunks 5 (parse_srt content)).length

/-- A single block whose text contains a line of exactly three hyphens. -/
def c9batch : List Subtitle := [⟨"1", "00:00:00,000", "00:00:00,001", "a\n---\nb"⟩]

/-- A block whose text line has leading whitespace. -/
def c6block : String := "1\n00:00:01,000 --> 00:00:02,000\n  Hi\n\n"

/-- A concrete well-formed abstract block. -/
def rbA : RawBlock := ⟨"1".toList, "00:00:00,000".toList, "00:00:00,001".toList, ["a".toList]⟩

/-- A concrete well-formed abstract block with two text lines. -/
def rbB : RawBlock :=
  ⟨"2".toList, "00:00:00,002".toList, "00:00:00,003".toList, ["b".toList, "c".toList]⟩

/-- A concrete well-formed abstract block with surrounding whitespace in its
text line. -/
def rbSpace : RawBlock :=
  ⟨"3".toList, "00:00:00,004".toList, "00:00:00,005".toList, [" a ".toList]⟩

/-! ## The claims -/

/-- Claim C2: for every batch of B records whose translated text splits on
the delimiter into exactly B parts, the orchestrator appends exactly B
output records whose index, start_time and end_time equal those of the
corresponding input records and whose text is the corresponding part with
surrounding whitespace trimmed, in the same positional order, and the run
continues with the next batch after checkpointing. -/
theorem batch_exact_shape_assignment {oracle : Nat → TransResult}
    {batch : List Subtitle} {t : String}
    (bs : List (List Subtitle)) (k : Nat) (acc : List Subtitle) (prog : Option String)
    (hok : oracle k = .ok t) (hlen : (splitParts t).length = batch.length) :
    runLoop oracle (batch :: bs) k acc prog =
      runLoop oracle bs (k + 1) (acc ++ (assignParts batch (splitParts t)).1)
        (some (save_progress (acc ++ (assignParts batch (splitParts t)).1))) ∧
    (assignParts batch (splitParts t)).1.length = batch.length ∧
    ∀ j, j < batch.length →
      keyOf ((assignParts batch (splitParts t)).1.getD j default)
          = keyOf (batch.getD j default) ∧
      ((assignParts batch (splitParts t)).1.getD j default).text
          = pyStripS ((splitParts t).getD j "") := by
  have herr : (assignParts batch (splitParts t)).2 = false := by
    rw [assignParts_snd]
    simp [hlen]
  refine ⟨runLoop_step_noerr bs k acc prog hok herr, ?_, ?_⟩
  · rw [assignParts_fst, List.length_zipWith, hlen]
    simp
  · intro j hj
    rw [assignParts_fst, zipWith_getD _ batch (splitParts t) j hj (by omega)]
    exact ⟨rfl, rfl⟩

/-- Witness for C2 at a concrete two-record batch and a two-part reply. -/
theorem batch_exact_shape_assignment_witness :
    (assignParts [subA, subB] (splitParts "X\n---\nY")).1.length = 2 :=
  (@batch_exact_shape_assignment (fun _ => .ok "X\n---\nY") [subA, subB] "X\n---\nY"
    [] 0 [] none rfl (by decide)).2.1

/-- Claim C3: if every attempt of the translation call fails (the default
budget being `max_retries` = 3 attempts), `translate_text` returns the
original input text unchanged for every input text and target language (and,
being a total function into `Option`, raises nothing past its boundary). -/
theorem translate_text_fallback {net : String → Nat → Option String}
    (text target_language : String)
    (hfail : ∀ i, i < max_retries → net (buildPrompt text target_language) i = none) :
    translate_text net text target_language = some text := by
  have h0 := hfail 0 (by decide)
  have h1 := hfail 1 (by decide)
  have h2 := hfail 2 (by decide)
  show attemptLoop (net (buildPrompt text target_language)) text 0 3 = some text
  have s0 : attemptLoop (net (buildPrompt text target_language)) text 0 3 =
      attemptLoop (net (buildPrompt text target_language)) text 1 2 := by
    show (match net (buildPrompt text target_language) 0 with
      | some r => some r
      | none => if (2 : Nat) = 0 then some text
          else attemptLoop (net (buildPrompt text target_language)) text 1 2) = _
    rw [h0, if_neg (by decide)]
  have s1 : attemptLoop (net (buildPrompt text target_language)) text 1 2 =
      attemptLoop (net (buildPrompt text target_language)) text 2 1 := by
    show (match net (buildPrompt text target_language) 1 with
      | some r => some r
      | none => if (1 : Nat) = 0 then some text
          else attemptLoop (net (buildPrompt text target_language)) text 2 1) = _
    rw [h1, if_neg (by decide)]
  have s2 : attemptLoop (net (buildPrompt text target_language)) text 2 1 = some text := by
    show (match net (buildPrompt text target_language) 2 with
      | some r => some r
      | none => if (0 : Nat) = 0 then some text
          else attemptLoop (net (buildPrompt text target_language)) text 3 0) = _
    rw [h2, if_pos rfl]
  rw [s0, s1, s2]

/-- Witness for C3: a remote service failing on every attempt. -/
theorem translate_text_fallback_witness :
    translate_text (fun _ _ => none) "bonjour" "French" = some "bonjour" :=
  translate_text_fallback "bonjour" "French" (fun _ _ => rfl)

/-- Claim C4 (as stated, refuted): the claim says that a translated text
splitting into FEWER parts than the batch has records raises an
out-of-range failure aborting the run.  On a two-record input whose single
batch translation returns one part, the run completes without any failure. -/
theorem fewer_parts_no_failure_counterexample :
    (splitParts "solo").length < (parse_srt cexContent).length ∧
    (chunks 5 (parse_srt cexContent)).length = 1 ∧
    (translate_subtitles (fun _ => .ok "solo") cexContent).outcome = RunOutcome.completed ∧
    (translate_subtitles (fun _ => .ok "solo") cexContent).outcome ≠ RunOutcome.failed := by
  decide

/-- Claim C4 (amended): it is a translated text splitting into MORE parts
than the batch has records that raises the out-of-range failure
(`IndexError` on `batch[j]`), aborting the run as an unexpected failure
after the whole batch has been appended and progress checkpointed; fewer
parts raise nothing. -/
theorem more_parts_abort_after_checkpoint {oracle : Nat → TransResult}
    {batch : List Subtitle} {t : String}
    (bs : List (List Subtitle)) (k : Nat) (acc : List Subtitle) (prog : Option String)
    (hok : oracle k = .ok t) (hgt : batch.length < (splitParts t).length) :
    (assignParts batch (splitParts t)).2 = true ∧
    runLoop oracle (batch :: bs) k acc prog =
      (.failed, acc ++ (assignParts batch (splitParts t)).1,
        some (save_progress (acc ++ (assignParts batch (splitParts t)).1))) := by
  have herr : (assignParts batch (splitParts t)).2 = true := by
    rw [assignParts_snd]
    simp [hgt]
  exact ⟨herr, runLoop_step_overflow bs k acc prog hok herr⟩

/-- Witness for the amended C4: a one-record batch and a two-part reply. -/
theorem more_parts_abort_after_checkpoint_witness :
    (assignParts [subA] (splitParts "X\n---\nY")).2 = true :=
  (@more_parts_abort_after_checkpoint (fun _ => .ok "X\n---\nY") [subA] "X\n---\nY"
    [] 0 [] none rfl (by decide)).1

/-- Claim C5: an input text consisting of N well-formed subtitle blocks
(each an index line, a time-range line, one or more text lines, closed by a
blank line, the last optionally by the end of input) parses to exactly the
N corresponding records, in original order. -/
theorem parse_counts_wellformed_blocks (bs : List RawBlock) (finalBlank : Bool)
    (h : ∀ b ∈ bs, wfBlock b) :
    parse_srt (renderBlocks bs finalBlank).asString = bs.map toSub ∧
    (parse_srt (renderBlocks bs finalBlank).asString).length = bs.length := by
  have h1 : parse_srt (renderBlocks bs finalBlank).asString = bs.map toSub := by
    unfold parse_srt
    rw [toList_asString]
    exact findBlocks_renderBlocks h finalBlank
  exact ⟨h1, by rw [h1, List.length_map]⟩

/-- Witness for C5: two blocks, the last closed by the end of input. -/
theorem parse_counts_wellformed_blocks_witness :
    (parse_srt (renderBlocks [rbA, rbB] false).asString).length = 2 :=
  (parse_counts_wellformed_blocks [rbA, rbB] false (by decide)).2

/-- Claim C6 (as stated, refuted): the claim says a block's parsed text is
the raw text with only trailing whitespace removed, keeping leading
whitespace.  On a block whose text line is "  Hi", trailing-only trimming
keeps the leading spaces, but the parser strips both sides. -/
theorem leading_whitespace_stripped_counterexample :
    (parse_srt c6block).map Subtitle.text = ["Hi"] ∧
    rightTrimOnly "  Hi\n" = "  Hi" ∧
    (parse_srt c6block).map Subtitle.text ≠ ["  Hi"] := by
  decide

/-- Claim C6 (amended): for every well-formed block, the parsed record's
text is the block's raw text region with BOTH leading and trailing
whitespace removed (Python `str.strip`); moreover a blank line is never
part of a block's text — it terminates the block, as the concrete input
with an embedded blank line shows. -/
theorem parse_block_text_stripped (b : RawBlock) (term : Bool) (h : wfBlock b) :
    (parse_srt (renderBlock b term).asString).map Subtitle.text
        = [(pyStrip (linesChars b.lines)).asString] ∧
    parse_srt "1\n00:00:01,000 --> 00:00:02,000\nA\n\nB\n\n"
        = [⟨"1", "00:00:01,000", "00:00:02,000", "A"⟩] := by
  refine ⟨?_, by decide⟩
  have hp : parse_srt (renderBlock b term).asString = [toSub b] := by
    unfold parse_srt
    rw [toList_asString]
    cases term with
    | false => exact findBlocks_renderBlock_last h
    | true =>
      rw [show renderBlock b true = renderBlock b true ++ [] by simp,
        findBlocks_renderBlock_true h [], findBlocks_nil]
  rw [hp]
  rfl

/-- Witness for the amended C6: a block whose text line carries surrounding
whitespace. -/
theorem parse_block_text_stripped_witness :
    (parse_srt (renderBlock rbSpace true).asString).map Subtitle.text
      = [(pyStrip (linesChars rbSpace.lines)).asString] :=
  (parse_block_text_stripped rbSpace true (by decide)).1

/-- Claim C7: if the interruption signal arrives while batch j (zero-based;
batch k = j+1 of N in one-based counting, with k < N allowed and k = N too)
is in flight, after batches 0..j-1 completed without out-of-range error,
then the run stops with the interrupted outcome (no error), the progress
sidecar file contains exactly the serialized translated records of the
completed batches, and the output file is not written. -/
theorem translate_subtitles_interrupted {oracle : Nat → TransResult}
    {content : String} {j : Nat}
    (hlt : j < (chunks 5 (parse_srt content)).length)
    (hok : ∀ i, i < j → batchOk ((chunks 5 (parse_srt content)).getD i []) (oracle i) = true)
    (hint : oracle j = .interrupt) :
    translate_subtitles oracle content =
      ⟨.interrupted,
        some (save_progress (accAfter oracle (chunks 5 (parse_srt content)) 0 j)),
        none⟩ := by
  unfold translate_subtitles
  rw [runLoop_interrupt j (chunks 5 (parse_srt content)) 0 [] none hlt
    (fun i hi => by rw [Nat.zero_add]; exact hok i hi)
    (by rw [Nat.zero_add]; exact hint)]
  rfl

set_option maxRecDepth 20000 in
/-- Witness for C7: a six-record input; the first batch completes, the
second is interrupted. -/
theorem translate_subtitles_interrupted_witness :
    translate_subtitles oracleInt content6 =
      ⟨.interrupted,
        some (save_progress (accAfter oracleInt (chunks 5 (parse_srt content6)) 0 1)),
        none⟩ :=
  translate_subtitles_interrupted (by decide)
    (fun i hi => by
      interval_cases i
      decide)
    (by decide)

/-- Claim C8 (as stated, refuted): the claim says that a run completing all
batches without an exception leaves no progress file and an output file of
exactly N records.  On a two-record input whose single batch translation
returns one part, the run completes without exception, yet the output file
holds one record, not two. -/
theorem completed_run_record_count_counterexample :
    (parse_srt cexContent).length = 2 ∧
    (translate_subtitles (fun _ => .ok "solo") cexContent).outcome = RunOutcome.completed ∧
    (translate_subtitles (fun _ => .ok "solo") cexContent).progress = none ∧
    (parse_srt ((translate_subtitles (fun _ => .ok "solo") cexContent).output.getD "")).length
      = 1 := by
  decide

/-- Claim C8 (amended): a run over an input parsing to N records in which
every batch's translated text splits into exactly as many parts as the
batch has records completes, afterwards the progress sidecar file no longer
exists, and the output file is the serialization of exactly N translated
records carrying the N source records' index and time fields in original
order. -/
theorem translate_subtitles_completed {oracle : Nat → TransResult} {content : String}
    (hshape : ∀ i, i < (chunks 5 (parse_srt content)).length →
      shapeOk ((chunks 5 (parse_srt content)).getD i []) (oracle i) = true) :
    translate_subtitles oracle content =
      ⟨.completed, none, some (save_progress (accAll oracle content))⟩ ∧
    (accAll oracle content).length = (parse_srt content).length ∧
    (accAll oracle content).map keyOf = (parse_srt content).map keyOf := by
  have hkeys : (accAll oracle content).map keyOf = (parse_srt content).map keyOf := by
    unfold accAll
    rw [accAfter_keys (chunks 5 (parse_srt content)) 0
      (fun i hi => by rw [Nat.zero_add]; exact hshape i hi)]
    rw [chunks_flatten (by omega) (parse_srt content)]
  refine ⟨?_, ?_, hkeys⟩
  · unfold translate_subtitles
    obtain ⟨p, hp⟩ := runLoop_completed (chunks 5 (parse_srt content)) 0 [] none
      (fun i hi => by rw [Nat.zero_add]; exact hshape i hi)
    rw [hp]
    rfl
  · have := congrArg List.length hkeys
    simpa using this

set_option maxRecDepth 20000 in
/-- Witness for the amended C8: both batches of the six-record input answer
with exactly shaped replies. -/
theorem translate_subtitles_completed_witness :
    translate_subtitles oracleOk6 content6 =
      ⟨.completed, none, some (save_progress (accAll oracleOk6 content6))⟩ :=
  (translate_subtitles_completed (fun i hi => by
    have hb : (chunks 5 (parse_srt content6)).length = 2 := by decide
    have h2 : i < 2 := by omega
    interval_cases i <;> decide)).1

/-- Claim C9: joining batch texts with the delimiter and re-splitting is
not a round trip: for a batch whose single record's text contains a line of
exactly three hyphens, even the identity translation (the combined text
returned unchanged) splits into two parts instead of one, and the original
text is not reproduced. -/
theorem join_split_not_roundtrip :
    combineTexts c9batch = "a\n---\nb" ∧
    splitParts (combineTexts c9batch) = ["a", "b"] ∧
    (splitParts (combineTexts c9batch)).length ≠ c9batch.length ∧
    (splitParts (combineTexts c9batch)).map pyStripS ≠ c9batch.map Subtitle.text := by
  decide

/-- Claim C10: a translated text splitting into strictly fewer parts P than
the batch has records raises no error: exactly the first P records of the
batch are appended, paired positionally with the trimmed parts, and the run
continues with the next batch; the remaining records of the batch are
silently dropped (the appended list has length P < B). -/
theorem fewer_parts_silent_drop {oracle : Nat → TransResult}
    {batch : List Subtitle} {t : String}
    (bs : List (List Subtitle)) (k : Nat) (acc : List Subtitle) (prog : Option String)
    (hok : oracle k = .ok t) (hlt : (splitParts t).length < batch.length) :
    (assignParts batch (splitParts t)).2 = false ∧
    runLoop oracle (batch :: bs) k acc prog =
      runLoop oracle bs (k + 1) (acc ++ (assignParts batch (splitParts t)).1)
        (some (save_progress (acc ++ (assignParts batch (splitParts t)).1))) ∧
    (assignParts batch (splitParts t)).1.length = (splitParts t).length ∧
    ∀ j, j < (splitParts t).length →
      keyOf ((assignParts batch (splitParts t)).1.getD j default)
          = keyOf (batch.getD j default) ∧
      ((assignParts batch (splitParts t)).1.getD j default).text
          = pyStripS ((splitParts t).getD j "") := by
  have herr : (assignParts batch (splitParts t)).2 = false := by
    rw [assignParts_snd]
    simp
    omega
  refine ⟨herr, runLoop_step_noerr bs k acc prog hok herr, ?_, ?_⟩
  · rw [assignParts_fst, List.length_zipWith]
    omega
  · intro j hj
    rw [assignParts_fst, zipWith_getD _ batch (splitParts t) j (by omega) hj]
    exact ⟨rfl, rfl⟩

/-- Witness for C10: a two-record batch and a single-part reply. -/
theorem fewer_parts_silent_drop_witness :
    (assignParts [subA, subB] (splitParts "solo")).1.length = 1 :=
  (@fewer_parts_silent_drop (fun _ => .ok "solo") [subA, subB] "solo"
    [] 0 [] none rfl (by decide)).2.2.1
